import Mathlib

/-!
Verification of the account naming/coding customizations in
`src/models/account_account.py` (an override layer of an accounting
application's `account.account` model).

The shallow embedding covers:
* `_search_new_account_name` — the unique-name allocator (cache + `.copyN`
  probing);
* the code-allocation phase of `create` — `itertools.groupby` over
  `company_ids`, per-group cache, `prefix`/`code_digits` handling;
* `_ensure_name_is_unique` — the per-company name completeness and
  duplicate checks;
* the `write` path's currency guard.

External collaborators of the host platform (the ORM search calls, the
company hierarchy, the sibling code allocator `_search_new_account_code`
and the reconcile toggle helpers) are not part of this repository; they
are embedded either as abstract parameters or, where a claim needs their
behaviour, as definitions modelled from the specification (each such
definition says so in its doc comment).
-/

/-- Remove duplicates from a list keeping the first occurrence of each
element, as Python dict/set insertion order does. -/
def dedupKeepFirst [DecidableEq α] : List α → List α
  | [] => []
  | a :: rest => a :: (dedupKeepFirst rest).filter (fun b => decide (b ≠ a))

theorem mem_dedupKeepFirst [DecidableEq α] (x : α) :
    ∀ l : List α, x ∈ dedupKeepFirst l ↔ x ∈ l := by
  intro l
  induction l with
  | nil => simp [dedupKeepFirst]
  | cons a rest ih =>
    simp only [dedupKeepFirst, List.mem_cons, List.mem_filter, decide_eq_true_eq]
    constructor
    · rintro (rfl | ⟨hx, _⟩)
      · exact Or.inl rfl
      · exact Or.inr (ih.mp hx)
    · rintro (rfl | hx)
      · exact Or.inl rfl
      · by_cases hxa : x = a
        · exact Or.inl hxa
        · exact Or.inr ⟨ih.mpr hx, hxa⟩

/-- `contains` is `false` exactly on non-members. -/
theorem contains_eq_false_iff [BEq α] [LawfulBEq α] (l : List α) (a : α) :
    l.contains a = false ↔ a ∉ l := by
  have h : l.contains a = decide (a ∈ l) := List.elem_eq_mem a l
  rw [h]
  simp

namespace AccountName

/-! ## `_search_new_account_name`

```python
if cache is None:
    cache = {start_name}

def name_is_available(new_name):
    return (
        new_name not in cache
        and not self.sudo().search_count([('name', '=', new_name), ...], limit=1)
    )

if name_is_available(start_name):
    return start_name

for num in range(99):
    new_name = f-string: start_name . copy (num + 1 if num else empty)
    if name_is_available(new_name):
        return new_name

raise UserError('Cannot generate an unused account name.')
```

The `search_count` over persisted accounts in the active company's
parent/child scope is an external ORM call; it is embedded as an abstract
predicate `persistedTaken : String → Bool`. The Python `set` cache is
embedded as a `List String` with membership. A raised `UserError` is the
`Except.error` case.
-/

/-- `name_is_available`: the candidate is neither in the batch cache nor
taken by a persisted account in the active company's parent/child scope. -/
def nameIsAvailable (persistedTaken : String → Bool) (cache : List String)
    (newName : String) : Bool :=
  !cache.contains newName && !persistedTaken newName

/-- The fallback candidate produced at loop index `num`:
`start_name.copy` for `num = 0` (Python `num + 1 if num else ""` renders
empty at 0), `start_name.copyN` with `N = num + 1` for `num ≥ 1`. -/
def copyCandidate (startName : String) (num : Nat) : String :=
  startName ++ ".copy" ++ (if num = 0 then "" else toString (num + 1))

/-- The `for num in range(99)` loop, started at index `num`: return the
first available fallback candidate, or the exhaustion error. -/
def searchFrom (avail : String → Bool) (startName : String) (num : Nat) :
    Except String String :=
  if h : num < 99 then
    if avail (copyCandidate startName num) then
      Except.ok (copyCandidate startName num)
    else
      searchFrom avail startName (num + 1)
  else
    Except.error "Cannot generate an unused account name."
termination_by 99 - num

/-- `_search_new_account_name start_name cache`; `cache = none` embeds the
Python default `cache=None`, which becomes the singleton `{start_name}`. -/
def searchNewAccountName (persistedTaken : String → Bool) (startName : String)
    (cacheArg : Option (List String)) : Except String String :=
  let cache := cacheArg.getD [startName]
  if nameIsAvailable persistedTaken cache startName then
    Except.ok startName
  else
    searchFrom (nameIsAvailable persistedTaken cache) startName 0

/-- A fallback candidate is strictly longer than `start_name`, hence never
equal to it. -/
theorem copyCandidate_ne_start (s : String) (n : Nat) : copyCandidate s n ≠ s := by
  intro h
  have hlen := congrArg String.length h
  have h5 : (".copy" : String).length = 5 := by decide
  simp only [copyCandidate, String.length_append, h5] at hlen
  omega

/-- If every index from `i` on is unavailable, the loop exhausts. -/
theorem searchFrom_error_iff (avail : String → Bool) (s : String) (i : Nat) :
    searchFrom avail s i = Except.error "Cannot generate an unused account name."
      ↔ ∀ m, i ≤ m → m < 99 → avail (copyCandidate s m) = false := by
  rw [searchFrom]
  by_cases hi : i < 99
  · rw [dif_pos hi]
    by_cases ha : avail (copyCandidate s i) = true
    · rw [if_pos ha]
      constructor
      · intro h; exact absurd h (by simp)
      · intro h
        have := h i (Nat.le_refl i) hi
        rw [ha] at this
        exact absurd this (by simp)
    · rw [if_neg ha]
      rw [searchFrom_error_iff avail s (i + 1)]
      constructor
      · intro h m him hm
        rcases Nat.eq_or_lt_of_le him with rfl | hlt
        · exact Bool.eq_false_iff.mpr ha
        · exact h m hlt hm
      · intro h m him hm
        exact h m (Nat.le_of_succ_le him) hm
  · rw [dif_neg hi]
    constructor
    · intro _ m him hm
      exact absurd (Nat.lt_of_le_of_lt him hm) hi
    · intro _; rfl
termination_by 99 - i

/-- The loop returns the first available candidate index. -/
theorem searchFrom_eq_ok_first (avail : String → Bool) (s : String) (i n : Nat)
    (hin : i ≤ n) (hn : n < 99) (ha : avail (copyCandidate s n) = true)
    (hfirst : ∀ m, i ≤ m → m < n → avail (copyCandidate s m) = false) :
    searchFrom avail s i = Except.ok (copyCandidate s n) := by
  rw [searchFrom]
  rw [dif_pos (Nat.lt_of_le_of_lt hin hn)]
  rcases Nat.eq_or_lt_of_le hin with rfl | hlt
  · rw [if_pos ha]
  · rw [if_neg (by simp [hfirst i (Nat.le_refl i) hlt])]
    exact searchFrom_eq_ok_first avail s (i + 1) n hlt hn ha
      (fun m him hm => hfirst m (Nat.le_of_succ_le him) hm)
termination_by 99 - i

/-- Any `ok` result of the loop is some fallback candidate that was
available. -/
theorem searchFrom_ok_shape (avail : String → Bool) (s : String) (i : Nat)
    (v : String) (h : searchFrom avail s i = Except.ok v) :
    ∃ n, i ≤ n ∧ n < 99 ∧ v = copyCandidate s n ∧ avail v = true := by
  rw [searchFrom] at h
  by_cases hi : i < 99
  · rw [dif_pos hi] at h
    by_cases ha : avail (copyCandidate s i) = true
    · rw [if_pos ha] at h
      exact ⟨i, Nat.le_refl i, hi, (Except.ok.injEq _ _ ▸ h).symm, by
        cases h' : avail v
        · rw [(Except.ok.injEq _ _ ▸ h : copyCandidate s i = v)] at ha
          rw [ha] at h'; exact absurd h' (by simp)
        · rfl⟩
    · rw [if_neg ha] at h
      obtain ⟨n, hin, hn, hv, hav⟩ := searchFrom_ok_shape avail s (i + 1) v h
      exact ⟨n, Nat.le_of_succ_le hin, hn, hv, hav⟩
  · rw [dif_neg hi] at h
    exact absurd h (by simp)
termination_by 99 - i

/-- C2: when `start_name` is unavailable, the allocator returns the first
available candidate among `start_name.copy`, `start_name.copy2`, ...,
`start_name.copy99`, probed in exactly that order. -/
theorem claim_C2_first_available_fallback (persistedTaken : String → Bool)
    (startName : String) (cacheArg : Option (List String)) (n : Nat)
    (hstart : nameIsAvailable persistedTaken (cacheArg.getD [startName]) startName = false)
    (hn : n < 99)
    (ha : nameIsAvailable persistedTaken (cacheArg.getD [startName])
      (copyCandidate startName n) = true)
    (hfirst : ∀ m, m < n → nameIsAvailable persistedTaken (cacheArg.getD [startName])
      (copyCandidate startName m) = false) :
    searchNewAccountName persistedTaken startName cacheArg
      = Except.ok (copyCandidate startName n) := by
  unfold searchNewAccountName
  rw [if_neg (by simp [hstart])]
  exact searchFrom_eq_ok_first _ startName 0 n (Nat.zero_le n) hn ha
    (fun m _ hm => hfirst m hm)

/-- Witness for C2: `"A"` and `"A.copy"` are taken, so the allocator
returns the next candidate `"A.copy2"`. -/
theorem claim_C2_witness :
    searchNewAccountName (fun t => t == "A" || t == "A.copy") "A" (some [])
      = Except.ok (copyCandidate "A" 1) :=
  claim_C2_first_available_fallback (fun t => t == "A" || t == "A.copy") "A"
    (some []) 1 (by decide) (by decide) (by decide) (by decide)

/-- C3: the allocator raises the allocation-exhausted error if and only if
`start_name` and all 99 fallback candidates are unavailable; otherwise it
returns a name. -/
theorem claim_C3_exhaustion_iff (persistedTaken : String → Bool)
    (startName : String) (cacheArg : Option (List String)) :
    searchNewAccountName persistedTaken startName cacheArg
        = Except.error "Cannot generate an unused account name."
      ↔ (nameIsAvailable persistedTaken (cacheArg.getD [startName]) startName = false ∧
         ∀ num, num < 99 → nameIsAvailable persistedTaken (cacheArg.getD [startName])
           (copyCandidate startName num) = false) := by
  unfold searchNewAccountName
  by_cases hstart : nameIsAvailable persistedTaken (cacheArg.getD [startName]) startName = true
  · rw [if_pos hstart]
    constructor
    · intro h; exact absurd h (by simp)
    · rintro ⟨h, _⟩; rw [hstart] at h; exact absurd h (by simp)
  · rw [if_neg hstart]
    rw [searchFrom_error_iff]
    constructor
    · intro h
      exact ⟨Bool.eq_false_iff.mpr hstart, fun num hnum => h num (Nat.zero_le num) hnum⟩
    · rintro ⟨_, h⟩ m _ hm
      exact h m hm

/-- C4: with an explicitly supplied empty cache and no persisted collision,
the allocator returns `start_name` unchanged. -/
theorem claim_C4_fresh_start_name (persistedTaken : String → Bool)
    (startName : String) (hfree : persistedTaken startName = false) :
    searchNewAccountName persistedTaken startName (some []) = Except.ok startName := by
  unfold searchNewAccountName
  rw [if_pos (by simp [nameIsAvailable, hfree])]

/-- Witness for C4 at a concrete fresh name. -/
theorem claim_C4_witness :
    (fun _ : String => false) "Cash" = false ∧
    searchNewAccountName (fun _ => false) "Cash" (some []) = Except.ok "Cash" :=
  ⟨by decide, claim_C4_fresh_start_name (fun _ => false) "Cash" (by decide)⟩

/-- C10: with the defaulted cache (`cache=None` becomes `{start_name}`),
the allocator never returns `start_name`; the first candidate it can
return is `start_name ++ ".copy"`. -/
theorem claim_C10_default_cache_excludes_start (persistedTaken : String → Bool)
    (startName : String) :
    searchNewAccountName persistedTaken startName none ≠ Except.ok startName ∧
    (persistedTaken (startName ++ ".copy") = false →
      searchNewAccountName persistedTaken startName none
        = Except.ok (startName ++ ".copy")) := by
  have hcopy0 : copyCandidate startName 0 = startName ++ ".copy" := by
    simp [copyCandidate]
  have hunavail : nameIsAvailable persistedTaken [startName] startName = false := by
    simp [nameIsAvailable]
  constructor
  · intro h
    unfold searchNewAccountName at h
    rw [if_neg (by simp [hunavail])] at h
    obtain ⟨n, _, _, hv, _⟩ := searchFrom_ok_shape _ startName 0 startName h
    exact copyCandidate_ne_start startName n hv.symm
  · intro hfree
    have hne : startName ++ ".copy" ≠ startName := fun h =>
      copyCandidate_ne_start startName 0 (hcopy0.trans h)
    unfold searchNewAccountName
    rw [if_neg (by simp [hunavail])]
    rw [searchFrom]
    rw [dif_pos (by omega)]
    rw [if_pos (by simp [nameIsAvailable, hcopy0, hfree, hne])]
    rw [hcopy0]

/-- Witness for C10: with no persisted collision the defaulted-cache
allocator skips `"A"` and returns `"A.copy"`. -/
theorem claim_C10_witness :
    searchNewAccountName (fun _ => false) "A" none ≠ Except.ok "A" ∧
    searchNewAccountName (fun _ => false) "A" none = Except.ok ("A" ++ ".copy") :=
  ⟨(claim_C10_default_cache_excludes_start (fun _ => false) "A").1,
   (claim_C10_default_cache_excludes_start (fun _ => false) "A").2 (by decide)⟩

end AccountName

namespace AccountCreate

/-! ## The code-allocation phase of `create`

```python
for company_ids, vals_list_for_company in itertools.groupby(vals_list, lambda v: v.get('company_ids', [])):
    cache = set()
    ...
    companies = self.env['res.company'].browse(company_ids)
    if self.env.company in companies or not companies:
        companies = self.env.company | companies

    for vals in vals_list_for_company:
        if 'prefix' in vals:
            prefix, digits = vals.pop('prefix'), vals.pop('code_digits')
            start_code = prefix.ljust(digits - 1, '0') + '1' if len(prefix) < digits else prefix
            vals['code'] = self.with_company(companies[0])._search_new_account_code(start_code, cache)
            cache.add(vals['code'])
```

A value map is embedded as `CVals`: its `company_ids` key (default `[]`),
its `prefix`/`code_digits` pair when present, and its `code` when present.
Value maps carrying `code_mapping_ids` are outside the embedded domain
(that branch only prepopulates `code` for the persistence layer).
Companies are `Nat` ids; the ORM search of the sibling code allocator is
the abstract predicate `taken : Nat → String → Bool` (active company,
candidate code).
-/

/-- A `create` value map: `company_ids` (default `[]`), the optional
`prefix`/`code_digits` instruction, and the optional explicit `code`. -/
structure CVals where
  companyIds : List Nat
  prefixDigits : Option (String × Nat)
  code : Option String
deriving DecidableEq

/-- Python `str.ljust`: LEFT-justify `s` in a string of length `width`,
padding on the right with `fill` (no-op when `s` is already long enough). -/
def ljust (s : String) (width : Nat) (fill : Char) : String :=
  s ++ String.mk (List.replicate (width - s.length) fill)

/-- `start_code = prefix.ljust(digits - 1, '0') + '1' if len(prefix) < digits else prefix`. -/
def startCodeOf (pfx : String) (digits : Nat) : String :=
  if pfx.length < digits then ljust pfx (digits - 1) '0' ++ "1" else pfx

/-- Numeric value of a block of decimal digit characters. -/
def digitsVal (l : List Char) : Nat :=
  l.foldl (fun acc c => acc * 10 + (c.toNat - 48)) 0

/-- Decimal rendering of `n`, zero-padded on the left to `width`. -/
def padNat (n width : Nat) : String :=
  String.mk (List.replicate (width - (toString n).length) '0') ++ toString n

/-- Modelled from the spec: the numeric-suffix successor rule of the
sibling code allocator `_search_new_account_code`, which is not part of
this repository ("analogous algorithm, numeric suffixes instead of
`.copyN`"; after `1000` comes `1001`). The trailing digit block of
`start_code` is read as a number, incremented by `n`, and re-padded to its
width. -/
def nextCode (startCode : String) (n : Nat) : String :=
  let ds := (startCode.data.reverse.takeWhile Char.isDigit).reverse
  if ds.isEmpty then startCode ++ toString n
  else
    String.mk (startCode.data.take (startCode.data.length - ds.length))
      ++ padNat (digitsVal ds + n) ds.length

/-- `code_is_available` of the sibling code allocator: neither in the batch
cache nor taken by a persisted account in the active company's
parent/child scope. -/
def codeIsAvailable (taken : Nat → String → Bool) (company : Nat)
    (cache : List String) (code : String) : Bool :=
  !cache.contains code && !taken company code

/-- Modelled from the spec: `_search_new_account_code` (the sibling code
allocator, not part of this repository): return `start_code` when
available, else probe numeric-suffix successors in increasing order within
a fixed probe budget, and fail with an allocation-exhausted error when the
budget is spent. -/
def searchNewAccountCode (taken : Nat → String → Bool) (company : Nat)
    (startCode : String) (cache : List String) : Except String String :=
  if codeIsAvailable taken company cache startCode then
    Except.ok startCode
  else
    match (List.range 99).find?
        (fun num => codeIsAvailable taken company cache (nextCode startCode (num + 1))) with
    | some num => Except.ok (nextCode startCode (num + 1))
    | none => Except.error "Cannot generate an unused account code."

/-- `companies[0]` for a group: `company_ids` is converted to ids and the
environment company is prepended when it is a member or the list is empty
(`self.env.company | companies` puts it first); otherwise the first
requested company stays first. -/
def activeCompanyFor (envCompany : Nat) (companyIds : List Nat) : Nat :=
  let ids := dedupKeepFirst companyIds
  if ids.contains envCompany || ids.isEmpty then envCompany else ids.headD envCompany

/-- `itertools.groupby(vals_list, lambda v: v.get('company_ids', []))`:
maximal runs of consecutive value maps with equal `company_ids`, each run
keeping its original order. -/
def groupRuns : List CVals → List (List Nat × List CVals)
  | [] => []
  | v :: rest =>
    match groupRuns rest with
    | [] => [(v.companyIds, [v])]
    | (k, g) :: gs =>
      if v.companyIds = k then (k, v :: g) :: gs
      else (v.companyIds, [v]) :: (k, g) :: gs

/-- The inner loop of `create` for one group: each value map carrying a
`prefix` gets its start code derived, a code allocated against the group's
cache, and the accepted code added to the cache; an allocator error
propagates. -/
def processGroup (taken : Nat → String → Bool) (company : Nat) :
    List String → List CVals → Except String (List CVals)
  | _, [] => Except.ok []
  | cache, v :: rest =>
    match v.prefixDigits with
    | some (pfx, digits) =>
      match searchNewAccountCode taken company (startCodeOf pfx digits) cache with
      | Except.ok newCode =>
        match processGroup taken company (newCode :: cache) rest with
        | Except.ok rest2 =>
          Except.ok ({ v with prefixDigits := none, code := some newCode } :: rest2)
        | Except.error e => Except.error e
      | Except.error e => Except.error e
    | none =>
      match processGroup taken company cache rest with
      | Except.ok rest2 => Except.ok (v :: rest2)
      | Except.error e => Except.error e

/-- Process every group in order, with a fresh cache per group. -/
def processGroups (taken : Nat → String → Bool) (envCompany : Nat) :
    List (List Nat × List CVals) → Except String (List CVals)
  | [] => Except.ok []
  | kg :: rest =>
    match processGroup taken (activeCompanyFor envCompany kg.1) [] kg.2 with
    | Except.ok out =>
      match processGroups taken envCompany rest with
      | Except.ok rest2 => Except.ok (out ++ rest2)
      | Except.error e => Except.error e
    | Except.error e => Except.error e

/-- The code-assignment phase of `create` over a whole batch. -/
def createAssignCodes (taken : Nat → String → Bool) (envCompany : Nat)
    (valsList : List CVals) : Except String (List CVals) :=
  processGroups taken envCompany (groupRuns valsList)

/-- The codes generated for the `prefix`-carrying value maps of a group,
read off by position from input and output. -/
def generatedCodes (input output : List CVals) : List String :=
  (input.zip output).filterMap
    (fun p => if p.1.prefixDigits.isSome then p.2.code else none)

/-- A code accepted by the (spec-modelled) code allocator was not in the
batch cache. -/
theorem searchNewAccountCode_ok_not_mem_cache (taken : Nat → String → Bool)
    (company : Nat) (startCode : String) (cache : List String) (c : String)
    (h : searchNewAccountCode taken company startCode cache = Except.ok c) :
    cache.contains c = false := by
  unfold searchNewAccountCode at h
  by_cases hs : codeIsAvailable taken company cache startCode = true
  · rw [if_pos hs] at h
    injection h with h2
    subst h2
    simp only [codeIsAvailable, Bool.and_eq_true, Bool.not_eq_true'] at hs
    exact hs.1
  · rw [if_neg hs] at h
    cases hfind : (List.range 99).find?
        (fun num => codeIsAvailable taken company cache (nextCode startCode (num + 1))) with
    | none => rw [hfind] at h; exact absurd h (by simp)
    | some num =>
      rw [hfind] at h
      injection h with h2
      subst h2
      have hp := List.find?_some hfind
      simp only [codeIsAvailable, Bool.and_eq_true, Bool.not_eq_true'] at hp
      exact hp.1

/-- C1 (counterexample): for prefix `"10"` and digits `4` the derived
starting code is `"1001"` — not `"1000"` as claimed — because Python
`str.ljust` pads on the right; with an empty batch cache and no persisted
collision the allocated code is therefore `"1001"` as well. -/
theorem claim_C1_counterexample :
    startCodeOf "10" 4 = "1001" ∧ startCodeOf "10" 4 ≠ "1000" ∧
    createAssignCodes (fun _ _ => false) 1 [⟨[], some ("10", 4), none⟩]
      = Except.ok [⟨[], none, some "1001"⟩] :=
  ⟨by decide, by decide, by rfl⟩

/-- C1 (amended): when the prefix is shorter than `digits`, the starting
code is the prefix padded on the RIGHT with zeros to `digits - 1`
characters followed by a trailing `"1"`; a prefix of length at least
`digits` is used as-is; for prefix `"10"`, digits `4`, an empty batch
cache and no persisted collision, the starting and allocated code is
`"1001"`. -/
theorem claim_C1_amended (pfx : String) (digits : Nat) :
    (pfx.length < digits →
      (startCodeOf pfx digits).data
        = pfx.data ++ List.replicate (digits - 1 - pfx.length) '0' ++ ['1']) ∧
    (digits ≤ pfx.length → startCodeOf pfx digits = pfx) ∧
    createAssignCodes (fun _ _ => false) 1 [⟨[], some ("10", 4), none⟩]
      = Except.ok [⟨[], none, some "1001"⟩] := by
  refine ⟨?_, ?_, by rfl⟩
  · intro h
    simp only [startCodeOf, if_pos h, ljust]
    simp [String.data_append]
  · intro h
    simp only [startCodeOf, if_neg (Nat.not_lt.mpr h)]

/-- Witness for C1 (amended) at prefix `"10"`, digits `4`. -/
theorem claim_C1_witness :
    ("10" : String).length < 4 ∧
    (startCodeOf "10" 4).data
      = ("10" : String).data ++ List.replicate (4 - 1 - ("10" : String).length) '0' ++ ['1'] :=
  ⟨by decide, (claim_C1_amended "10" 4).1 (by decide)⟩

/-- C5 (counterexample): `itertools.groupby` groups only consecutive equal
keys, so two non-adjacent value maps with the same `company_ids` `[1]`
fall into two distinct groups (three groups in all, not two). -/
theorem claim_C5_counterexample :
    groupRuns [⟨[1], none, none⟩, ⟨[2], none, none⟩, ⟨[1], none, none⟩]
      = [([1], [⟨[1], none, none⟩]), ([2], [⟨[2], none, none⟩]),
         ([1], [⟨[1], none, none⟩])] ∧
    (groupRuns [⟨[1], none, none⟩, ⟨[2], none, none⟩, ⟨[1], none, none⟩]).length = 3 :=
  ⟨by decide, by decide⟩

/-- C5 (amended): batch creation splits the incoming list into maximal
runs of consecutive value maps with equal requested `company_ids`:
concatenating the groups restores the original batch (so relative order
within each group is preserved), every group is nonempty and homogeneous
in its key, and adjacent groups carry distinct keys — value maps with
equal `company_ids` that are not adjacent end up in distinct groups, each
with its own per-group code cache. -/
theorem claim_C5_amended (valsList : List CVals) :
    ((groupRuns valsList).map Prod.snd).flatten = valsList ∧
    (∀ kg ∈ groupRuns valsList, kg.2 ≠ [] ∧ ∀ v ∈ kg.2, v.companyIds = kg.1) ∧
    List.Chain' (fun a b => a.1 ≠ b.1) (groupRuns valsList) := by
  induction valsList with
  | nil => exact ⟨rfl, by simp [groupRuns], by simp [groupRuns]⟩
  | cons v rest ih =>
    obtain ⟨ihJoin, ihMem, ihChain⟩ := ih
    cases heq : groupRuns rest with
    | nil =>
      have hrest : rest = [] := by rw [heq] at ihJoin; simpa using ihJoin.symm
      subst hrest
      refine ⟨by simp [groupRuns], ?_, by simp [groupRuns]⟩
      intro kg hkg
      simp only [groupRuns, List.mem_singleton] at hkg
      subst hkg
      exact ⟨by simp, by simp⟩
    | cons kg0 gs =>
      obtain ⟨k, g⟩ := kg0
      rw [heq] at ihJoin ihMem ihChain
      by_cases hk : v.companyIds = k
      · have hgr : groupRuns (v :: rest) = (k, v :: g) :: gs := by
          simp [groupRuns, heq, hk]
        refine ⟨?_, ?_, ?_⟩
        · rw [hgr]
          simp only [List.map_cons, List.flatten_cons] at ihJoin ⊢
          rw [List.cons_append, ihJoin]
        · rw [hgr]
          intro kg hkg
          rcases List.mem_cons.mp hkg with rfl | htail
          · refine ⟨by simp, ?_⟩
            intro x hx
            rcases List.mem_cons.mp hx with rfl | hg
            · exact hk
            · exact (ihMem (k, g) (List.mem_cons_self _ _)).2 x hg
          · exact ihMem kg (List.mem_cons_of_mem _ htail)
        · rw [hgr]
          rw [List.chain'_cons'] at ihChain ⊢
          exact ⟨ihChain.1, ihChain.2⟩
      · have hgr : groupRuns (v :: rest) = (v.companyIds, [v]) :: (k, g) :: gs := by
          simp [groupRuns, heq, hk]
        refine ⟨?_, ?_, ?_⟩
        · rw [hgr]
          simp only [List.map_cons, List.flatten_cons] at ihJoin ⊢
          rw [ihJoin]
          simp
        · rw [hgr]
          intro kg hkg
          rcases List.mem_cons.mp hkg with rfl | htail
          · exact ⟨by simp, by simp⟩
          · exact ihMem kg htail
        · rw [hgr]
          rw [List.chain'_cons]
          exact ⟨hk, ihChain⟩

/-- Witness for C5 (amended) on a concrete batch. -/
theorem claim_C5_witness :
    ((groupRuns [⟨[1], none, none⟩, ⟨[2], none, none⟩, ⟨[1], none, none⟩]).map
        Prod.snd).flatten
      = [⟨[1], none, none⟩, ⟨[2], none, none⟩, ⟨[1], none, none⟩] :=
  (claim_C5_amended [⟨[1], none, none⟩, ⟨[2], none, none⟩, ⟨[1], none, none⟩]).1

/-- C6 (counterexample): with no persisted collision at all, a batch with
two identical `prefix`/`code_digits` requests separated by a value map
with different `company_ids` produces the SAME generated code `"1001"` for
the first and third accounts (same requested `company_ids`, same code):
the in-batch cache is reset for every consecutive-run group, not shared
across the batch. -/
theorem claim_C6_counterexample :
    createAssignCodes (fun _ _ => false) 1
        [⟨[], some ("10", 4), none⟩, ⟨[2], some ("10", 4), none⟩,
         ⟨[], some ("10", 4), none⟩]
      = Except.ok [⟨[], none, some "1001"⟩, ⟨[2], none, some "1001"⟩,
         ⟨[], none, some "1001"⟩] := by
  rfl

/-- C6 (amended): within one `groupby` group the in-batch cache does give
the claimed guarantee: a successful run of the group loop yields pairwise
distinct generated codes, none of which was already in the group's cache
(each accepted code is added to the cache before the next allocation in
that group). Across groups of the same batch the cache is reset, so two
identical non-adjacent requests can receive the same code, which only the
final `_ensure_code_is_unique` pass (outside this repository) rejects. -/
theorem claim_C6_amended (taken : Nat → String → Bool) (company : Nat) :
    ∀ (group : List CVals) (cache : List String) (out : List CVals),
    processGroup taken company cache group = Except.ok out →
    (generatedCodes group out).Nodup ∧
    ∀ c ∈ generatedCodes group out, cache.contains c = false := by
  intro group
  induction group with
  | nil =>
    intro cache out h
    simp only [processGroup] at h
    injection h with h2
    subst h2
    simp [generatedCodes]
  | cons v rest ih =>
    intro cache out h
    simp only [processGroup] at h
    split at h
    · rename_i pfx digits hv
      split at h
      · rename_i newCode halloc
        split at h
        · rename_i rest2 hrec
          injection h with h2
          subst h2
          obtain ⟨ihNd, ihCache⟩ := ih (newCode :: cache) rest2 hrec
          have hgen : generatedCodes (v :: rest)
              ({ v with prefixDigits := none, code := some newCode } :: rest2)
              = newCode :: generatedCodes rest rest2 := by
            simp [generatedCodes, hv]
          rw [hgen]
          constructor
          · refine List.Nodup.cons ?_ ihNd
            intro hmem
            have hc := ihCache newCode hmem
            rw [contains_eq_false_iff] at hc
            exact hc (List.mem_cons_self _ _)
          · intro c hc
            rcases List.mem_cons.mp hc with rfl | htail
            · exact searchNewAccountCode_ok_not_mem_cache taken company
                (startCodeOf pfx digits) cache c halloc
            · have hc2 := ihCache c htail
              rw [contains_eq_false_iff] at hc2 ⊢
              exact fun hmem => hc2 (List.mem_cons_of_mem _ hmem)
        · exact absurd h (by simp)
      · exact absurd h (by simp)
    · rename_i hv
      split at h
      · rename_i rest2 hrec
        injection h with h2
        subst h2
        have hgen : generatedCodes (v :: rest) (v :: rest2)
            = generatedCodes rest rest2 := by
          simp [generatedCodes, hv]
        rw [hgen]
        exact ih cache rest2 hrec
      · exact absurd h (by simp)

/-- Witness for C6 (amended): two identical requests in the SAME group get
distinct codes `"1001"` and `"1002"`. -/
theorem claim_C6_witness :
    (generatedCodes
        [⟨[], some ("10", 4), none⟩, ⟨[], some ("10", 4), none⟩]
        [⟨[], none, some "1001"⟩, ⟨[], none, some "1002"⟩]).Nodup ∧
    ∀ c ∈ generatedCodes
        [⟨[], some ("10", 4), none⟩, ⟨[], some ("10", 4), none⟩]
        [⟨[], none, some "1001"⟩, ⟨[], none, some "1002"⟩],
      ([] : List String).contains c = false :=
  claim_C6_amended (fun _ _ => false) 1
    [⟨[], some ("10", 4), none⟩, ⟨[], some ("10", 4), none⟩] []
    [⟨[], none, some "1001"⟩, ⟨[], none, some "1002"⟩] (by rfl)

end AccountCreate

namespace NameUnique

/-! ## `_ensure_name_is_unique`

```python
# Check 1: Check that the name is set.
for account in self.sudo():
    for company in account.company_ids.root_id:
        if not account.with_company(company).name:
            raise ValidationError("The name must be set for every company ...")

# Check 2 ...
account_ids_to_check_by_company = defaultdict(list)
for account in self.sudo():
    for company in account.company_ids:
        account_ids_to_check_by_company[company].append(account.id)

for company, account_ids in account_ids_to_check_by_company.items():
    accounts = self.browse(account_ids)...
    accounts_by_name = defaultdict(list)
    for acc in accounts.with_company(company):
        accounts_by_name[acc.name].append(acc)
    duplicate_names = None
    if any(len(accs) > 1 for accs in accounts_by_name.values()):
        duplicate_names = [name for name, accs in accounts_by_name.items() if len(accs) > 1]
    elif duplicates := search_fetch([('name', 'in', list(accounts_by_name)),
                                     ('id', 'not in', self.ids),
                                     parent_of company or child_of company], ['name']):
        duplicate_names = duplicates.mapped('name')
    if duplicate_names:
        raise ValidationError("... duplicate names: ...")
```

An account record is embedded as `NAccount`: its id, its `company_ids`
and its (company-context-dependent) `name`, `nameIn c` standing for
`with_company(c).name` (`""` embeds a falsy/unset name). The company
hierarchy lives in the host platform; it is embedded abstractly as
`CompanyEnv`: `rootOf c` is `c`'s root company, and `parentOf`/`childOf`
are the `parent_of`/`child_of` domain predicates of the persisted search
(`parentOf cid c`: a record company `cid` matches `parent_of` company
`c`). Persisted accounts outside the checked set are the list
`persisted`. -/

/-- An `account.account` record as seen by `_ensure_name_is_unique`. -/
structure NAccount where
  id : Nat
  companyIds : List Nat
  nameIn : Nat → String

/-- The external company hierarchy: root companies and the
`parent_of`/`child_of` search predicates. -/
structure CompanyEnv where
  rootOf : Nat → Nat
  parentOf : Nat → Nat → Bool
  childOf : Nat → Nat → Bool

/-- The two `ValidationError`s of `_ensure_name_is_unique`. -/
inductive NameErr where
  | nameNotSet
  | duplicate (names : List String)
deriving DecidableEq

/-- The checked accounts having `c` among their `company_ids`
(`account_ids_to_check_by_company[c]`, in order). -/
def accountsAt (checked : List NAccount) (c : Nat) : List NAccount :=
  checked.filter (fun a => a.companyIds.contains c)

/-- Their names in company `c`'s context (`accounts.with_company(c)`). -/
def namesAt (checked : List NAccount) (c : Nat) : List String :=
  (accountsAt checked c).map (fun a => a.nameIn c)

/-- Check 2.1: the names carried by more than one checked account scoped
to `c` (the keys of `accounts_by_name` whose group has length > 1). -/
def intraDupNames (checked : List NAccount) (c : Nat) : List String :=
  (dedupKeepFirst (namesAt checked c)).filter
    (fun n => decide (2 ≤ (namesAt checked c).count n))

/-- Check 2.2: the persisted accounts outside the checked set, in
parent/child scope of `c`, sharing a checked name in `c`'s context. -/
def persistedDups (env : CompanyEnv) (persisted checked : List NAccount)
    (c : Nat) : List NAccount :=
  persisted.filter (fun p =>
    (namesAt checked c).contains (p.nameIn c)
    && !(checked.map (fun a => a.id)).contains p.id
    && p.companyIds.any (fun cid => env.parentOf cid c || env.childOf cid c))

/-- `duplicate_names` for company `c`: the intra-set duplicates when any
exist, else (`elif`) the names of the persisted duplicates. -/
def dupNamesAt (env : CompanyEnv) (persisted checked : List NAccount)
    (c : Nat) : List String :=
  if (intraDupNames checked c).isEmpty then
    (persistedDups env persisted checked c).map (fun p => p.nameIn c)
  else
    intraDupNames checked c

/-- The keys of `account_ids_to_check_by_company` in insertion order. -/
def companiesOf (checked : List NAccount) : List Nat :=
  dedupKeepFirst (checked.flatMap (fun a => a.companyIds))

/-- `_ensure_name_is_unique`: check 1 (a name set for every root company
of every checked account), then check 2 (per company, intra-set
duplicates, else persisted duplicates), raising at the first company with
a nonempty `duplicate_names`. -/
def ensureNameIsUnique (env : CompanyEnv) (persisted checked : List NAccount) :
    Except NameErr Unit :=
  if checked.any (fun a =>
      (dedupKeepFirst (a.companyIds.map env.rootOf)).any
        (fun r => a.nameIn r == "")) then
    Except.error NameErr.nameNotSet
  else
    match (companiesOf checked).find?
        (fun c => !(dupNamesAt env persisted checked c).isEmpty) with
    | some c => Except.error (NameErr.duplicate (dupNamesAt env persisted checked c))
    | none => Except.ok ()

/-- Check 2.1 finds nothing exactly when the names of the checked accounts
scoped to `c` are pairwise distinct in `c`'s context. -/
theorem intraDupNames_eq_nil_iff (checked : List NAccount) (c : Nat) :
    intraDupNames checked c = [] ↔ (namesAt checked c).Nodup := by
  constructor
  · intro h
    rw [List.nodup_iff_count_le_one]
    intro a
    by_cases hmem : a ∈ namesAt checked c
    · have ha : a ∈ dedupKeepFirst (namesAt checked c) :=
        (mem_dedupKeepFirst a (namesAt checked c)).mpr hmem
      have := List.filter_eq_nil_iff.mp h a ha
      simp only [decide_eq_true_eq] at this
      omega
    · rw [List.count_eq_zero.mpr hmem]
      omega
  · intro h
    rw [List.nodup_iff_count_le_one] at h
    apply List.filter_eq_nil_iff.mpr
    intro a _
    simp only [decide_eq_true_eq]
    have := h a
    omega

/-- Check 2.2 finds something exactly when a persisted account outside the
checked set, matching `c`'s parent/child scope, carries a checked name. -/
theorem persistedDups_ne_nil_iff (env : CompanyEnv)
    (persisted checked : List NAccount) (c : Nat) :
    persistedDups env persisted checked c ≠ [] ↔
      ∃ p ∈ persisted, p.id ∉ checked.map (fun a => a.id) ∧
        (∃ a ∈ accountsAt checked c, a.nameIn c = p.nameIn c) ∧
        (∃ cid ∈ p.companyIds,
          env.parentOf cid c = true ∨ env.childOf cid c = true) := by
  unfold persistedDups
  rw [ne_eq, List.filter_eq_nil_iff]
  push_neg
  constructor
  · rintro ⟨p, hp, hpred⟩
    rw [Bool.and_eq_true, Bool.and_eq_true] at hpred
    obtain ⟨⟨hname, hid⟩, hscope⟩ := hpred
    refine ⟨p, hp, ?_, ?_, ?_⟩
    · intro hmem
      rw [Bool.not_eq_true'] at hid
      rw [contains_eq_false_iff] at hid
      exact hid hmem
    · have : p.nameIn c ∈ namesAt checked c := by
        have h2 : (namesAt checked c).contains (p.nameIn c) = true := hname
        rcases h3 : (namesAt checked c).contains (p.nameIn c) with _ | _
        · rw [h3] at h2; exact absurd h2 (by simp)
        · by_contra hnm
          rw [(contains_eq_false_iff (namesAt checked c) (p.nameIn c)).mpr hnm] at h2
          exact absurd h2 (by simp)
      obtain ⟨a, ha, hae⟩ := List.mem_map.mp this
      exact ⟨a, ha, hae⟩
    · rw [List.any_eq_true] at hscope
      obtain ⟨cid, hcid, hor⟩ := hscope
      rw [Bool.or_eq_true] at hor
      exact ⟨cid, hcid, hor⟩
  · rintro ⟨p, hp, hid, ⟨a, ha, hae⟩, cid, hcid, hor⟩
    refine ⟨p, hp, ?_⟩
    rw [Bool.and_eq_true, Bool.and_eq_true]
    refine ⟨⟨?_, ?_⟩, ?_⟩
    · rcases h3 : (namesAt checked c).contains (p.nameIn c) with _ | _
      · rw [contains_eq_false_iff] at h3
        exact absurd (List.mem_map.mpr ⟨a, ha, hae⟩) h3
      · rfl
    · rw [Bool.not_eq_true']
      rw [contains_eq_false_iff]
      exact hid
    · rw [List.any_eq_true]
      exact ⟨cid, hcid, Bool.or_eq_true _ _ |>.mpr hor⟩

/-- `duplicate_names` for company `c` is nonempty exactly under the
claimed per-company condition: an intra-set duplicate, or — only when no
intra-set duplicate exists at `c` — a persisted duplicate. -/
theorem dupNamesAt_ne_nil_iff (env : CompanyEnv)
    (persisted checked : List NAccount) (c : Nat) :
    (dupNamesAt env persisted checked c).isEmpty = false ↔
      (¬ (namesAt checked c).Nodup ∨
       ((namesAt checked c).Nodup ∧
        ∃ p ∈ persisted, p.id ∉ checked.map (fun a => a.id) ∧
          (∃ a ∈ accountsAt checked c, a.nameIn c = p.nameIn c) ∧
          (∃ cid ∈ p.companyIds,
            env.parentOf cid c = true ∨ env.childOf cid c = true))) := by
  unfold dupNamesAt
  by_cases hintra : intraDupNames checked c = []
  · rw [if_pos (by simp [hintra])]
    have hnd := (intraDupNames_eq_nil_iff checked c).mp hintra
    rw [List.isEmpty_eq_false, ne_eq, List.map_eq_nil_iff]
    constructor
    · intro h
      exact Or.inr ⟨hnd, (persistedDups_ne_nil_iff env persisted checked c).mp h⟩
    · rintro (h | ⟨_, h⟩)
      · exact absurd hnd h
      · exact (persistedDups_ne_nil_iff env persisted checked c).mpr h
  · rw [if_neg (by simp [List.isEmpty_eq_false, hintra])]
    rw [List.isEmpty_eq_false]
    constructor
    · intro _
      exact Or.inl (fun hnd => hintra ((intraDupNames_eq_nil_iff checked c).mpr hnd))
    · intro _
      exact hintra

/-- A company is a key of `account_ids_to_check_by_company` exactly when a
checked account carries it. -/
theorem mem_companiesOf (checked : List NAccount) (c : Nat) :
    c ∈ companiesOf checked ↔ ∃ a ∈ checked, c ∈ a.companyIds := by
  unfold companiesOf
  rw [mem_dedupKeepFirst, List.mem_flatMap]

/-- C7: assuming every checked account has a (non-empty) name for each
root company of its scope (the completeness check passes),
`_ensure_name_is_unique` raises the aggregated duplicate-names validation
error exactly when some company `c` carried by a checked account has
either two checked accounts scoped to `c` with the same name in `c`'s
context, or — only in the absence of such an intra-set duplicate at `c` —
a persisted account outside the checked set, visible in `c`'s
parent/child scope, sharing a checked name; in particular checked
accounts whose company scopes are disjoint raise nothing. -/
theorem claim_C7_duplicate_error_iff (env : CompanyEnv)
    (persisted checked : List NAccount)
    (hset : ∀ a ∈ checked, ∀ c ∈ a.companyIds, a.nameIn (env.rootOf c) ≠ "") :
    (∃ ns, ensureNameIsUnique env persisted checked
        = Except.error (NameErr.duplicate ns))
      ↔ ∃ c, (∃ a ∈ checked, c ∈ a.companyIds) ∧
          (¬ (namesAt checked c).Nodup ∨
           ((namesAt checked c).Nodup ∧
            ∃ p ∈ persisted, p.id ∉ checked.map (fun a => a.id) ∧
              (∃ a ∈ accountsAt checked c, a.nameIn c = p.nameIn c) ∧
              (∃ cid ∈ p.companyIds,
                env.parentOf cid c = true ∨ env.childOf cid c = true))) := by
  have hany : checked.any (fun a =>
      (dedupKeepFirst (a.companyIds.map env.rootOf)).any
        (fun r => a.nameIn r == "")) = false := by
    rw [List.any_eq_false]
    intro a ha
    rw [Bool.not_eq_true, List.any_eq_false]
    intro r hr
    obtain ⟨cid, hcid, rfl⟩ :=
      List.mem_map.mp ((mem_dedupKeepFirst r (a.companyIds.map env.rootOf)).mp hr)
    simp only [Bool.not_eq_true, beq_eq_false_iff_ne, ne_eq]
    exact hset a ha cid hcid
  unfold ensureNameIsUnique
  rw [if_neg (by simp [hany])]
  cases hfind : (companiesOf checked).find?
      (fun c => !(dupNamesAt env persisted checked c).isEmpty) with
  | none =>
    constructor
    · rintro ⟨ns, hns⟩
      exact absurd hns (by simp)
    · rintro ⟨c, hc, hcond⟩
      have hmem := (mem_companiesOf checked c).mpr hc
      have hfalse := List.find?_eq_none.mp hfind c hmem
      have hb : (dupNamesAt env persisted checked c).isEmpty = true := by
        simpa using hfalse
      have hne := (dupNamesAt_ne_nil_iff env persisted checked c).mpr hcond
      rw [hb] at hne
      exact absurd hne (by simp)
  | some c =>
    constructor
    · rintro ⟨ns, _⟩
      have hpred := List.find?_some hfind
      rw [Bool.not_eq_true'] at hpred
      have hcmem := List.mem_of_find?_eq_some hfind
      exact ⟨c, (mem_companiesOf checked c).mp hcmem,
        (dupNamesAt_ne_nil_iff env persisted checked c).mp hpred⟩
    · intro _
      exact ⟨dupNamesAt env persisted checked c, rfl⟩

/-- Witness for C7: two checked accounts both scoped to company `1` and
both named `"Cash"` raise the duplicate-names error. -/
theorem claim_C7_witness :
    ∃ ns, ensureNameIsUnique
        ⟨id, fun _ _ => false, fun _ _ => false⟩ []
        [⟨1, [1], fun _ => "Cash"⟩, ⟨2, [1], fun _ => "Cash"⟩]
      = Except.error (NameErr.duplicate ns) :=
  (claim_C7_duplicate_error_iff ⟨id, fun _ _ => false, fun _ _ => false⟩ []
      [⟨1, [1], fun _ => "Cash"⟩, ⟨2, [1], fun _ => "Cash"⟩]
      (by decide)).mpr
    ⟨1, ⟨⟨1, [1], fun _ => "Cash"⟩, by simp, by simp⟩, Or.inl (by decide)⟩

/-- C8: the completeness check runs before duplicate detection: whenever
some checked account has an empty name in the context of some root
company of its `company_ids`, `_ensure_name_is_unique` raises the
name-not-set validation error — even when duplicates also exist. -/
theorem claim_C8_empty_name_raises (env : CompanyEnv)
    (persisted checked : List NAccount)
    (h : ∃ a ∈ checked, ∃ c ∈ a.companyIds, a.nameIn (env.rootOf c) = "") :
    ensureNameIsUnique env persisted checked
      = Except.error NameErr.nameNotSet := by
  obtain ⟨a, ha, c, hc, hname⟩ := h
  have hany : checked.any (fun a =>
      (dedupKeepFirst (a.companyIds.map env.rootOf)).any
        (fun r => a.nameIn r == "")) = true := by
    rw [List.any_eq_true]
    refine ⟨a, ha, ?_⟩
    rw [List.any_eq_true]
    refine ⟨env.rootOf c, ?_, ?_⟩
    · exact (mem_dedupKeepFirst _ _).mpr (List.mem_map_of_mem _ hc)
    · rw [hname]; rfl
  unfold ensureNameIsUnique
  rw [if_pos hany]

/-- Witness for C8: an account with an empty name for its root company
raises name-not-set even though two other accounts also duplicate
`"Cash"` in company `2`. -/
theorem claim_C8_witness :
    ensureNameIsUnique ⟨id, fun _ _ => false, fun _ _ => false⟩ []
        [⟨1, [1], fun c => if c = 1 then "" else "X"⟩,
         ⟨2, [2], fun _ => "Cash"⟩, ⟨3, [2], fun _ => "Cash"⟩]
      = Except.error NameErr.nameNotSet :=
  claim_C8_empty_name_raises ⟨id, fun _ _ => false, fun _ _ => false⟩ []
    [⟨1, [1], fun c => if c = 1 then "" else "X"⟩,
     ⟨2, [2], fun _ => "Cash"⟩, ⟨3, [2], fun _ => "Cash"⟩]
    ⟨⟨1, [1], fun c => if c = 1 then "" else "X"⟩, by simp, 1, by simp, by decide⟩

end NameUnique

namespace WritePath

/-! ## The `write` override

```python
def write(self, vals):
    if 'reconcile' in vals:
        if vals['reconcile']:
            self.filtered(lambda r: not r.reconcile)._toggle_reconcile_to_true()
        else:
            self.filtered(lambda r: r.reconcile)._toggle_reconcile_to_false()

    if vals.get('currency_id'):
        for account in self:
            if self.env['account.move.line'].search_count([
                    ('account_id', '=', account.id),
                    ('currency_id', 'not in', (False, vals['currency_id']))]):
                raise UserError('You cannot set a currency on this account ...')

    res = super(...)).write(vals)
    ...
```

The embedded state is the written recordset's accounts plus the journal
entry lines visible to the currency search. The reconcile toggle helpers
`_toggle_reconcile_to_true` / `_toggle_reconcile_to_false` are sibling
mechanisms outside this repository that recompute the residual amounts of
journal entry lines; they are embedded as arbitrary residual updates
(`resTrue`/`resFalse`), which act only on the lines of the filtered
accounts and never on account fields or line currencies. The embedded
value maps carry the `reconcile` and `currency_id` keys (`currencyId =
none` embeds an absent or falsy `currency_id`, for which the guard is
skipped); vals carrying `name`/`company_ids`/`code`-related keys
additionally re-run the uniqueness checks after the underlying write and
are outside this value-map domain. The raise of a `UserError` aborts the
whole batch before `super().write` runs, leaving every account field
unchanged (the host transaction has no partial-success mode), embedded as
the `Except.error` case producing no successor state. -/

/-- An account as seen by `write`. -/
structure WAccount where
  id : Nat
  reconcile : Bool
  currency : Option Nat
deriving DecidableEq

/-- A journal entry line: its account, its (optional) foreign currency and
its residual amount. -/
structure MoveLine where
  accountId : Nat
  currency : Option Nat
  residual : Int
deriving DecidableEq

/-- The written recordset plus the journal entry lines. -/
structure WState where
  accounts : List WAccount
  lines : List MoveLine
deriving DecidableEq

/-- The embedded value map of `write`. -/
structure WVals where
  reconcile : Option Bool
  currencyId : Option Nat
deriving DecidableEq

inductive WriteError where
  | currencyMismatch
deriving DecidableEq

/-- A reconcile toggle: update the residual amount of every line of the
given accounts (account fields and line currencies are untouched). -/
def toggleLines (resUpdate : MoveLine → Int) (ids : List Nat)
    (lines : List MoveLine) : List MoveLine :=
  lines.map (fun l =>
    if ids.contains l.accountId then { l with residual := resUpdate l } else l)

/-- `super().write(vals)`: set the present fields on every account. -/
def applyVals (st : WState) (vals : WVals) : WState :=
  { st with accounts := st.accounts.map (fun a =>
      { a with
        reconcile := vals.reconcile.getD a.reconcile,
        currency := match vals.currencyId with
          | some c => some c
          | none => a.currency }) }

/-- The `write` override: reconcile toggling on the filtered accounts,
then the currency guard (raising before the underlying write), then
`super().write`. -/
def write (resTrue resFalse : MoveLine → Int) (st : WState) (vals : WVals) :
    Except WriteError WState :=
  let st1 :=
    match vals.reconcile with
    | some b =>
      if b then
        { st with lines := (toggleLines resTrue
            ((st.accounts.filter (fun a => !a.reconcile)).map (fun a => a.id))
            st.lines) }
      else
        { st with lines := (toggleLines resFalse
            ((st.accounts.filter (fun a => a.reconcile)).map (fun a => a.id))
            st.lines) }
    | none => st
  match vals.currencyId with
  | some c =>
    if st1.accounts.any (fun a => st1.lines.any (fun l =>
        l.accountId == a.id && l.currency.isSome && !(l.currency == some c))) then
      Except.error WriteError.currencyMismatch
    else
      Except.ok (applyVals st1 vals)
  | none => Except.ok (applyVals st1 vals)

/-- Toggling preserves each line's account and currency. -/
theorem toggleLines_preserves (resUpdate : MoveLine → Int) (ids : List Nat)
    (lines : List MoveLine) (l : MoveLine) (hl : l ∈ lines) :
    ∃ l2 ∈ toggleLines resUpdate ids lines,
      l2.accountId = l.accountId ∧ l2.currency = l.currency := by
  unfold toggleLines
  refine ⟨if ids.contains l.accountId then { l with residual := resUpdate l } else l,
    List.mem_map_of_mem _ hl, ?_⟩
  by_cases h : ids.contains l.accountId = true
  · rw [if_pos h]; exact ⟨rfl, rfl⟩
  · rw [if_neg h]; exact ⟨rfl, rfl⟩

/-- C9: when the value map sets a (truthy) `currency_id` and some account
in the written set already has a journal entry line with a different
foreign currency, `write` raises the currency `UserError` before applying
the underlying write: the batch fails with every account field unchanged
(no `ok` state is produced), whatever the reconcile toggling did to
residuals. -/
theorem claim_C9_currency_guard (resTrue resFalse : MoveLine → Int)
    (st : WState) (vals : WVals) (c : Nat)
    (hcur : vals.currencyId = some c)
    (hmis : ∃ a ∈ st.accounts, ∃ l ∈ st.lines,
      l.accountId = a.id ∧ l.currency ≠ none ∧ l.currency ≠ some c) :
    write resTrue resFalse st vals = Except.error WriteError.currencyMismatch := by
  obtain ⟨a, ha, l, hl, hacc, hsome, hne⟩ := hmis
  unfold write
  rw [hcur]
  have hline : ∀ ls : List MoveLine,
      (∃ l2 ∈ ls, l2.accountId = l.accountId ∧ l2.currency = l.currency) →
      (st.accounts.any (fun a2 => ls.any (fun l2 =>
        l2.accountId == a2.id && l2.currency.isSome && !(l2.currency == some c)))) = true := by
    rintro ls ⟨l2, hl2, hlacc, hlcur⟩
    rw [List.any_eq_true]
    refine ⟨a, ha, ?_⟩
    rw [List.any_eq_true]
    refine ⟨l2, hl2, ?_⟩
    rw [Bool.and_eq_true, Bool.and_eq_true]
    refine ⟨⟨?_, ?_⟩, ?_⟩
    · rw [hlacc, hacc]; exact beq_self_eq_true a.id
    · rw [hlcur]; exact Option.isSome_iff_ne_none.mpr hsome
    · rw [hlcur]
      rw [Bool.not_eq_true', beq_eq_false_iff_ne]
      exact hne
  cases hrec : vals.reconcile with
  | none =>
    simp only [hrec]
    rw [if_pos (hline st.lines ⟨l, hl, rfl, rfl⟩)]
  | some b =>
    simp only [hrec]
    cases b with
    | true =>
      simp only [if_true]
      rw [if_pos (hline _ (toggleLines_preserves resTrue
        ((st.accounts.filter (fun a2 => !a2.reconcile)).map (fun a2 => a2.id))
        st.lines l hl))]
    | false =>
      simp only [Bool.false_eq_true, if_false]
      rw [if_pos (hline _ (toggleLines_preserves resFalse
        ((st.accounts.filter (fun a2 => a2.reconcile)).map (fun a2 => a2.id))
        st.lines l hl))]

/-- Witness for C9: setting currency `2` while account `1` has a line in
currency `3` raises the currency error (with reconcile toggling also
requested). -/
theorem claim_C9_witness :
    (⟨some true, some 2⟩ : WVals).currencyId = some 2 ∧
    write (fun _ => 0) (fun _ => 0)
        ⟨[⟨1, false, none⟩], [⟨1, some 3, 5⟩]⟩ ⟨some true, some 2⟩
      = Except.error WriteError.currencyMismatch :=
  ⟨rfl, claim_C9_currency_guard (fun _ => 0) (fun _ => 0)
    ⟨[⟨1, false, none⟩], [⟨1, some 3, 5⟩]⟩ ⟨some true, some 2⟩ 2 rfl
    ⟨⟨1, false, none⟩, by simp, ⟨1, some 3, 5⟩, by simp, rfl, by simp, by simp⟩⟩

end WritePath
